import Mathlib

/-!
Verification of the git smart-HTTP reference-advertisement rewriter in
`cmd/gvisor-website/main.go` (the `/gvisor/info/refs` handler and its
pkt-line codec).  Byte buffers are modelled as `List Char`, one `Char`
per byte; all functions below are direct translations of the Go source.
-/

set_option maxRecDepth 4000

abbrev Bytes := List Char

/-- The fixed first record payload (`serviceLine` in the Go source). -/
def serviceLine : Bytes := "# service=git-upload-pack".data

/-- The configured rewrite target branch (`target` in the Go source). -/
def target : Bytes := "refs/heads/go".data

/-- Lowercase hex digit, as produced by Go's `%x` verb. -/
def hexChar (d : Nat) : Char :=
  if d < 10 then Char.ofNat (48 + d) else Char.ofNat (87 + d)

/-- Hex digits of `n`, most significant first, via an explicit fuel bound
(the fuel `n+1` always suffices, see `toHexCore_eq_wf` below). -/
def toHexCore : Nat → Nat → List Char → List Char
  | 0, _, acc => acc
  | fuel+1, n, acc =>
    if n < 16 then hexChar n :: acc
    else toHexCore fuel (n / 16) (hexChar (n % 16) :: acc)

/-- Go `fmt.Sprintf("%x", n)` for `n : Nat`: lowercase hex, no padding. -/
def toHex (n : Nat) : List Char := toHexCore (n + 1) n []

/-- Left-pad with zeros to a minimum width of 4: the `04` in `%04x`.
Go's width is a minimum, so longer digit strings pass through unpadded. -/
def pad4 (ds : List Char) : List Char := List.replicate (4 - ds.length) '0' ++ ds

/-- `strings.TrimSuffix(m, "\n")`: strip exactly one trailing newline. -/
def trimNewline (m : Bytes) : Bytes :=
  if m.getLast? = some '\x0a' then m.dropLast else m

/-- `emitPkt` from the Go source: the empty payload is the 4-byte flush marker
`0000`; otherwise `%04x` of `4+len(m)+1`, the payload, and one newline. -/
def emitPkt (m : Bytes) : Bytes :=
  if m = [] then pad4 (toHex 0)
  else pad4 (toHex (4 + m.length + 1)) ++ m ++ ['\x0a']

/-- Value of a hex digit byte, as accepted by `strconv.ParseUint(_, 16, _)`. -/
def hexVal (c : Char) : Option Nat :=
  if '0' ≤ c ∧ c ≤ '9' then some (c.toNat - 48)
  else if 'a' ≤ c ∧ c ≤ 'f' then some (c.toNat - 87)
  else if 'A' ≤ c ∧ c ≤ 'F' then some (c.toNat - 55)
  else none

/-- `strconv.ParseUint(s, 16, _)` digit loop (no `0x` prefix and no
underscores are accepted when the base is given explicitly). -/
def parseHexDigits : List Char → Nat → Option Nat
  | [], acc => some acc
  | c :: rest, acc =>
    match hexVal c with
    | none => none
    | some d => parseHexDigits rest (acc * 16 + d)

/-- `strconv.ParseInt(s, 16, 32)` on the 4-byte length field: an optional
sign followed by a non-empty run of hex digits.  A 4-byte input can hold at
most `0xffff < 2^31`, so the 32-bit range check of `ParseInt` can never
fail here and is omitted. -/
def parseHex4 (cs : List Char) : Option Int :=
  match cs with
  | [] => none
  | c :: rest =>
    if c = '+' then
      if rest = [] then none else (parseHexDigits rest 0).map Int.ofNat
    else if c = '-' then
      if rest = [] then none else (parseHexDigits rest 0).map (fun n => -(n : Int))
    else (parseHexDigits (c :: rest) 0).map Int.ofNat

/-- Result of `readPkt`.  `notOk` is the Go `("", false)` return; `panicked`
models the Go runtime panic raised by the slice expression `data[4:size]`
when the parsed size is negative or in `1..3` (then `size < 4`, so the slice
bounds are inverted). -/
inductive PktRes where
  | ok (payload : Bytes) (rest : Bytes)
  | notOk
  | panicked
deriving DecidableEq, Repr

/-- `readPkt` from the Go source, reading one record from the front of
`data` and returning the remaining buffer. -/
def readPkt (data : Bytes) : PktRes :=
  if data.length < 4 then .notOk
  else
    match parseHex4 (data.take 4) with
    | none => .notOk
    | some size =>
      if size = 0 then .ok [] (data.drop 4)
      else if (data.length : Int) < size then .notOk
      else if size < 4 then .panicked
      else .ok (trimNewline ((data.take size.toNat).drop 4)) (data.drop size.toNat)

/-- Payload projection used to state decode results. -/
def pktPayload : PktRes → Option Bytes
  | .ok p _ => some p
  | _ => none

/-- `strings.Split(l, sep)` for a single-byte separator, via an auxiliary
returning the first field and the remaining fields (so the result is
non-empty by construction, as in Go). -/
def splitOnCharAux (sep : Char) : List Char → List Char × List (List Char)
  | [] => ([], [])
  | c :: cs =>
    let r := splitOnCharAux sep cs
    if c = sep then ([], r.1 :: r.2) else (c :: r.1, r.2)

/-- `strings.Split(l, [sep])`. -/
def splitOnChar (sep : Char) (l : List Char) : List (List Char) :=
  (splitOnCharAux sep l).1 :: (splitOnCharAux sep l).2

/-- `strings.Join(parts, " ")`. -/
def joinSpace : List Bytes → Bytes
  | [] => []
  | [x] => x
  | x :: y :: xs => x ++ ' ' :: joinSpace (y :: xs)

/-- The `symref=` capability marker. -/
def symrefMark : Bytes := "symref=".data

/-- The option-rewriting loop of `infoRefs` (lines 390-395 of main.go):
every capability starting with `symref=` becomes `symref=<target>`. -/
def rewriteOptions (opts : List Bytes) : List Bytes :=
  opts.map fun o => if symrefMark.isPrefixOf o then symrefMark ++ target else o

/-- Result of `readRef`.  `blank` is the Go `("", "", nil, true)` return used
for empty payloads (blank lines and flush records alike); `fail` carries the
plaintext 500 body written by `readRef` itself. -/
inductive RefRes where
  | entry (hash name : Bytes) (options : List Bytes) (rest : Bytes)
  | blank (rest : Bytes)
  | fail (body : Bytes)
  | panicked
deriving DecidableEq, Repr

/-- `readRef` from the Go source: read one record, treat an empty line as
blank, otherwise split on NUL (at most two parts) and split the left part
on a space into exactly hash and name. -/
def readRef (data : Bytes) : RefRes :=
  match readPkt data with
  | .panicked => .panicked
  | .notOk => .fail ("invalid reference: ".data)
  | .ok line rest =>
    if line = [] then .blank rest
    else
      match splitOnChar '\x00' line with
      | [p0] =>
        match splitOnChar ' ' p0 with
        | [h, n] => .entry h n [] rest
        | _ => .fail ("invalid reference: ".data ++ line)
      | [p0, p1] =>
        match splitOnChar ' ' p0 with
        | [h, n] => .entry h n (splitOnChar ' ' p1) rest
        | _ => .fail ("invalid reference: ".data ++ line)
      | _ => .fail ("invalid reference: ".data ++ line)

/-- The first-reference loop of `infoRefs` (lines 381-387): keep reading
while the returned name is empty.  Each successful `readPkt` consumes at
least 4 bytes, so fuel `data.length + 1` can never run out (the fuel-0
value is arbitrary dead code; see `skipBlanksCore_congr`). -/
def skipBlanksCore : Nat → Bytes → RefRes
  | 0, _ => .panicked
  | fuel+1, data =>
    match readRef data with
    | .blank rest => skipBlanksCore fuel rest
    | .entry h n o rest => if n = [] then skipBlanksCore fuel rest else .entry h n o rest
    | r => r

/-- The first-reference loop with its sufficient fuel. -/
def skipBlanks (data : Bytes) : RefRes := skipBlanksCore (data.length + 1) data

/-- Association-list image of the Go map `others`: lookup returns the most
recent binding. -/
def mLookup : List (Bytes × Bytes) → Bytes → Option Bytes
  | [], _ => none
  | p :: rest, k => if p.1 = k then some p.2 else mLookup rest k

/-- Go map assignment `m[k] = v` (the new binding shadows any older one). -/
def mInsert (m : List (Bytes × Bytes)) (k v : Bytes) : List (Bytes × Bytes) :=
  (k, v) :: m

/-- Go `delete(m, k)`: remove every binding of `k`. -/
def mDelete (m : List (Bytes × Bytes)) (k : Bytes) : List (Bytes × Bytes) :=
  m.filter fun p => decide (p.1 ≠ k)

/-- Result of the `others`-reading loop. -/
inductive OthersRes where
  | done (others : List (Bytes × Bytes)) (order : List Bytes) (rest : Bytes)
  | fail (body : Bytes)
  | panicked
deriving DecidableEq, Repr

/-- The reference-collection loop of `infoRefs` (lines 397-410): read until
a record with an empty hash (blank line or flush), recording `others` and
`order`.  Fuel as in `skipBlanksCore`. -/
def readOthersCore : Nat → Bytes → List (Bytes × Bytes) → List Bytes → OthersRes
  | 0, _, _, _ => .panicked
  | fuel+1, data, others, order =>
    match readRef data with
    | .panicked => .panicked
    | .fail b => .fail b
    | .blank rest => .done others order rest
    | .entry hash name _ rest =>
      if hash = [] then .done others order rest
      else readOthersCore fuel rest (mInsert others name hash) (order ++ [name])

/-- The reference-collection loop with its sufficient fuel. -/
def readOthers (data : Bytes) (others : List (Bytes × Bytes)) (order : List Bytes) : OthersRes :=
  readOthersCore (data.length + 1) data others order

/-- Bytewise (Go string) strict order. -/
def lexLt : List Char → List Char → Bool
  | [], [] => false
  | [], _ :: _ => true
  | _ :: _, [] => false
  | a :: as, b :: bs => a < b || (a = b && lexLt as bs)

/-- Bytewise (Go string) order, `a ≤ b`. -/
def lexLe (a b : List Char) : Bool := !lexLt b a

/-- Insertion step of an ascending insertion sort. -/
def insertStr (x : Bytes) : List Bytes → List Bytes
  | [] => [x]
  | y :: ys => if lexLe x y then x :: y :: ys else y :: insertStr x ys

/-- `sort.Strings`: sort ascending in Go string (bytewise) order. -/
def sortStrings (l : List Bytes) : List Bytes := l.foldr insertStr []

/-- Outcome of the handler body: a complete HTTP response, or a Go runtime
panic after some bytes were already written. -/
inductive HRes where
  | resp (status : Nat) (body : Bytes)
  | panicked (written : Bytes)
deriving DecidableEq, Repr

/-- The final emission loop (lines 439-446): one record per `order` entry,
looked up in `others`; a missing entry is the Go `panic` (modelled as
`Sum.inr` carrying the bytes written so far). -/
def emitLoop (others : List (Bytes × Bytes)) : List Bytes → Bytes ⊕ Bytes
  | [] => .inl []
  | name :: rest =>
    match mLookup others name with
    | none => .inr []
    | some h =>
      match emitLoop others rest with
      | .inl b => .inl (emitPkt (h ++ ' ' :: name) ++ b)
      | .inr b => .inr (emitPkt (h ++ ' ' :: name) ++ b)

/-- The output phase of `infoRefs` (lines 436-447): service header record,
blank record, first entry with NUL-separated capability list, the remaining
records, and the terminal flush. -/
def emitAll (headHash first : Bytes) (options : List Bytes)
    (others : List (Bytes × Bytes)) (order : List Bytes) : HRes :=
  match emitLoop others order with
  | .inl b => .resp 200 (emitPkt serviceLine ++ emitPkt [] ++
      emitPkt (headHash ++ ' ' :: first ++ '\x00' :: joinSpace options) ++ b ++ emitPkt [])
  | .inr b => .panicked (emitPkt serviceLine ++ emitPkt [] ++
      emitPkt (headHash ++ ' ' :: first ++ '\x00' :: joinSpace options) ++ b)

/-- The advertisement-rewriting body of `infoRefs` (lines 307-448), applied
to an upstream 200 response body.  The `.blank` case of `skipBlanks` is
unreachable (`skipBlanksCore` never returns `.blank`); its value is dead
code. -/
def infoRefsBody (data : Bytes) : HRes :=
  match readPkt data with
  | .panicked => .panicked []
  | .notOk => .resp 500 ("invalid upstream header: ".data)
  | .ok header rest =>
    if header = serviceLine then
      match skipBlanks rest with
      | .fail b => .resp 500 b
      | .panicked => .panicked []
      | .blank _ => .panicked []
      | .entry headHash first options rest2 =>
        match readOthers rest2 [] [] with
        | .fail b => .resp 500 b
        | .panicked => .panicked []
        | .done others order _ =>
          match mLookup others target with
          | none => .resp 500 ("invalid target reference: ".data ++ target)
          | some tHash =>
            if first = "HEAD".data then
              emitAll tHash first (rewriteOptions options) others order
            else
              emitAll tHash target (rewriteOptions options)
                (mDelete (mInsert others target tHash) target)
                (sortStrings (order ++ [target]))
    else .resp 500 ("invalid upstream header: ".data ++ header)

/-- First-match lookup in the query parameter list (`r.URL.Query()[k]`). -/
def lookupQ : List (Bytes × List Bytes) → Bytes → Option (List Bytes)
  | [], _ => none
  | p :: rest, k => if p.1 = k then some p.2 else lookupQ rest k

/-- The dumb-client check of `infoRefs` (lines 262-263): `true` means the
request is rejected with 403.  `vs ≠ [gup]` combines Go's short-circuit
`len(vs) != 1 || vs[0] != "git-upload-pack"`. -/
def checkQuery (q : List (Bytes × List Bytes)) : Bool :=
  match lookupQ q "service".data with
  | none => true
  | some vs =>
    decide (1 < q.length) || decide (vs.length ≠ 1) ||
      decide (vs ≠ ["git-upload-pack".data])

/-- Insertion step for sorting query keys (Go's `fmt` prints map keys in
ascending order). -/
def insertPair (x : Bytes × List Bytes) :
    List (Bytes × List Bytes) → List (Bytes × List Bytes)
  | [] => [x]
  | y :: ys => if lexLe x.1 y.1 then x :: y :: ys else y :: insertPair x ys

/-- Sort query parameters by key. -/
def sortPairs (l : List (Bytes × List Bytes)) : List (Bytes × List Bytes) :=
  l.foldr insertPair []

/-- Go `fmt` rendering of a `[]string` value. -/
def sliceRepr (vs : List Bytes) : Bytes := '[' :: (joinSpace vs ++ [']'])

/-- Go `fmt` `%v` rendering of `url.Values` (`map[k1:[v] k2:[v]]`, keys
sorted). -/
def mapRepr (q : List (Bytes × List Bytes)) : Bytes :=
  "map[".data ++ joinSpace ((sortPairs q).map fun p => p.1 ++ ':' :: sliceRepr p.2) ++ [']']

/-- The full `infoRefs` handler (lines 250-448) as a function of the parsed
query parameters and the upstream response: the 403 gate, the non-200
pass-through, and the rewriting body. -/
def infoRefs (q : List (Bytes × List Bytes)) (upStatus : Nat) (upBody : Bytes) : HRes :=
  if checkQuery q then .resp 403 ("invalid query: ".data ++ mapRepr q)
  else if upStatus = 200 then infoRefsBody upBody
  else .resp upStatus upBody

/-- The only accepted query: exactly one parameter `service=git-upload-pack`. -/
def exactQuery : List (Bytes × List Bytes) := [("service".data, ["git-upload-pack".data])]

/-- A structured upstream advertisement: first reference line (with its raw
capability trailer, if any) and the remaining `(hash, name)` references in
upstream order. -/
structure Adv where
  firstHash : Bytes
  firstName : Bytes
  firstCaps : Option Bytes
  others : List (Bytes × Bytes)
deriving DecidableEq, Repr

/-- Wire form of a first reference line: `hash SP name [NUL caps]`. -/
def refLineBytes (hash name : Bytes) (caps : Option Bytes) : Bytes :=
  hash ++ ' ' :: name ++ (match caps with | none => [] | some c => '\x00' :: c)

/-- The capability list `readRef` recovers from a first line: Go `nil` when
there was no NUL, otherwise the space-split of the trailer. -/
def capOpts : Option Bytes → List Bytes
  | none => []
  | some c => splitOnChar ' ' c

/-- Wire form of the remaining reference records. -/
def othersBytes (l : List (Bytes × Bytes)) : Bytes :=
  (l.map fun p => emitPkt (p.1 ++ ' ' :: p.2)).flatten

/-- Wire form of a whole advertisement: header record, flush (the blank
separator clients rely on), first line, remaining records, flush. -/
def encodeAdv (a : Adv) : Bytes :=
  emitPkt serviceLine ++ emitPkt [] ++
    emitPkt (refLineBytes a.firstHash a.firstName a.firstCaps) ++
    othersBytes a.others ++ emitPkt []

/-- A hash or name token the parser can recover: non-empty, no space, no NUL. -/
def goodTok (s : Bytes) : Prop := s ≠ [] ∧ ' ' ∉ s ∧ '\x00' ∉ s

instance (s : Bytes) : Decidable (goodTok s) := by
  unfold goodTok; infer_instance

/-- Well-formed advertisement: recoverable tokens, record payloads within
the 4-hex-digit length bound, NUL-free capability trailer, and distinct
remaining reference names (the spec's reference *set*). -/
def advWF (a : Adv) : Prop :=
  goodTok a.firstHash ∧ goodTok a.firstName ∧
  '\x00' ∉ a.firstCaps.getD [] ∧
  (refLineBytes a.firstHash a.firstName a.firstCaps).length ≤ 65530 ∧
  (∀ p ∈ a.others, goodTok p.1 ∧ goodTok p.2 ∧ p.1.length + 1 + p.2.length ≤ 65530) ∧
  (a.others.map Prod.snd).Nodup

instance (a : Adv) : Decidable (advWF a) := by
  unfold advWF goodTok; infer_instance

/-- Decode the `(hash, name)` entries of an advertisement body, first entry
first, using the same parser the handler uses (the remaining entries are
read back through the `others` map, as the emit loop does). -/
def advEntryPairs (data : Bytes) : Option (List (Bytes × Bytes)) :=
  match readPkt data with
  | .ok hdr rest =>
    if hdr = serviceLine then
      match skipBlanks rest with
      | .entry h n _ rest2 =>
        match readOthers rest2 [] [] with
        | .done m order _ =>
          some ((h, n) :: order.map fun nm => ((mLookup m nm).getD [], nm))
        | _ => none
      | _ => none
    else none
  | _ => none

/-- Status projection of a handler outcome. -/
def statusOf : HRes → Option Nat
  | .resp st _ => some st
  | .panicked _ => none

/-- Body projection of a handler outcome (for a panic: the bytes written
before the panic). -/
def bodyOf : HRes → Bytes
  | .resp _ b => b
  | .panicked b => b

/-! ### Hex codec lemmas -/

/-- Recursive (well-founded) description of the hex digits of `n`; used only
in proofs, computation goes through `toHexCore`. -/
def hexDigitsWF (n : Nat) : List Char :=
  if n < 16 then [hexChar n]
  else hexDigitsWF (n / 16) ++ [hexChar (n % 16)]
termination_by n
decreasing_by exact Nat.div_lt_self (by omega) (by omega)

theorem toHexCore_eq_wf : ∀ (fuel n : Nat) (acc : List Char), n < 16 ^ (fuel + 1) →
    toHexCore (fuel + 1) n acc = hexDigitsWF n ++ acc := by
  intro fuel
  induction fuel with
  | zero =>
    intro n acc h
    have h16 : n < 16 := by simpa using h
    rw [hexDigitsWF]
    simp [toHexCore, h16]
  | succ fuel ih =>
    intro n acc h
    by_cases h16 : n < 16
    · rw [hexDigitsWF]
      simp [toHexCore, h16]
    · have hdiv : n / 16 < 16 ^ (fuel + 1) := by
        rw [Nat.div_lt_iff_lt_mul (by omega)]
        calc n < 16 ^ (fuel + 2) := h
        _ = 16 ^ (fuel + 1) * 16 := by ring
      have step : toHexCore (fuel + 1 + 1) n acc
          = toHexCore (fuel + 1) (n / 16) (hexChar (n % 16) :: acc) := by
        conv_lhs => rw [toHexCore]
        rw [if_neg h16]
      rw [step, ih (n / 16) _ hdiv]
      conv_rhs => rw [hexDigitsWF]
      rw [if_neg h16]
      simp [List.append_assoc]

theorem toHex_eq_wf (n : Nat) : toHex n = hexDigitsWF n := by
  have h : n < 16 ^ (n + 1) :=
    lt_of_lt_of_le (Nat.lt_pow_self (by omega) n) (Nat.pow_le_pow_right (by omega) (by omega))
  simpa using toHexCore_eq_wf n n [] h

theorem parseHexDigits_append (l1 l2 : List Char) (a : Nat) :
    parseHexDigits (l1 ++ l2) a =
      (parseHexDigits l1 a).bind (fun b => parseHexDigits l2 b) := by
  induction l1 generalizing a with
  | nil => simp [parseHexDigits]
  | cons c rest ih =>
    simp only [List.cons_append, parseHexDigits]
    cases hexVal c with
    | none => simp
    | some d => simp [ih]

theorem hexVal_hexChar (d : Nat) (h : d < 16) : hexVal (hexChar d) = some d := by
  interval_cases d <;> decide

theorem parseHexDigits_hexDigitsWF (n : Nat) :
    ∀ a : Nat, parseHexDigits (hexDigitsWF n) a = some (a * 16 ^ (hexDigitsWF n).length + n) := by
  induction n using Nat.strong_induction_on with
  | _ n ih =>
    intro a
    by_cases h16 : n < 16
    · rw [hexDigitsWF, if_pos h16]
      simp [parseHexDigits, hexVal_hexChar n h16]
    · rw [hexDigitsWF, if_neg h16]
      rw [parseHexDigits_append, ih (n / 16) (Nat.div_lt_self (by omega) (by omega)) a]
      simp only [Option.some_bind, parseHexDigits,
        hexVal_hexChar (n % 16) (by omega : n % 16 < 16)]
      rw [List.length_append, List.length_singleton]
      congr 1
      have hdm : n / 16 * 16 + n % 16 = n := by omega
      calc (a * 16 ^ (hexDigitsWF (n / 16)).length + n / 16) * 16 + n % 16
          = a * (16 ^ (hexDigitsWF (n / 16)).length * 16) + (n / 16 * 16 + n % 16) := by ring
      _ = a * 16 ^ ((hexDigitsWF (n / 16)).length + 1) + n := by rw [hdm, pow_succ]

theorem length_hexDigitsWF (n : Nat) :
    ∀ k : Nat, n < 16 ^ (k + 1) → (hexDigitsWF n).length ≤ k + 1 := by
  induction n using Nat.strong_induction_on with
  | _ n ih =>
    intro k hk
    by_cases h16 : n < 16
    · rw [hexDigitsWF]; simp [h16]
    · cases k with
      | zero => simp at hk; omega
      | succ k =>
        rw [hexDigitsWF]
        simp only [h16, if_neg, if_false, List.length_append, List.length_singleton]
        have hdiv : n / 16 < 16 ^ (k + 1) := by
          rw [Nat.div_lt_iff_lt_mul (by omega)]
          calc n < 16 ^ (k + 2) := hk
          _ = 16 ^ (k + 1) * 16 := by ring
        have := ih (n / 16) (Nat.div_lt_self (by omega) (by omega)) k hdiv
        omega

theorem mem_hexDigitsWF (n : Nat) :
    ∀ c : Char, c ∈ hexDigitsWF n → ∃ d : Nat, d < 16 ∧ c = hexChar d := by
  induction n using Nat.strong_induction_on with
  | _ n ih =>
    intro c hc
    by_cases h16 : n < 16
    · rw [hexDigitsWF] at hc
      simp [h16] at hc
      exact ⟨n, h16, hc⟩
    · rw [hexDigitsWF] at hc
      simp only [h16, if_neg, if_false, List.mem_append, List.mem_singleton] at hc
      rcases hc with hc | hc
      · exact ih (n / 16) (Nat.div_lt_self (by omega) (by omega)) c hc
      · exact ⟨n % 16, by omega, hc⟩

theorem hexDigitsWF_ne_nil (n : Nat) : hexDigitsWF n ≠ [] := by
  rw [hexDigitsWF]
  by_cases h16 : n < 16 <;> simp [h16]

theorem parseHexDigits_replicate (k a : Nat) :
    parseHexDigits (List.replicate k '0') a = some (a * 16 ^ k) := by
  induction k generalizing a with
  | zero => simp [parseHexDigits]
  | succ k ih =>
    rw [List.replicate_succ]
    have h0 : hexVal '0' = some 0 := by decide
    simp only [parseHexDigits, h0]
    rw [ih]
    congr 1
    rw [pow_succ]
    ring

theorem hexChar_ne_sign (d : Nat) (h : d < 16) : hexChar d ≠ '+' ∧ hexChar d ≠ '-' := by
  interval_cases d <;> exact ⟨by decide, by decide⟩

theorem parseHex4_of_digits (cs : List Char) (n : Nat) (hne : cs ≠ [])
    (hhead : ∀ c ∈ cs, c ≠ '+' ∧ c ≠ '-')
    (hparse : parseHexDigits cs 0 = some n) :
    parseHex4 cs = some (n : Int) := by
  cases cs with
  | nil => exact absurd rfl hne
  | cons c rest =>
    obtain ⟨h1, h2⟩ := hhead c (List.mem_cons_self c rest)
    rw [parseHex4]
    rw [if_neg h1, if_neg h2, hparse]
    rfl

theorem pad4_length (ds : List Char) (h : ds.length ≤ 4) : (pad4 ds).length = 4 := by
  simp [pad4]
  omega

theorem pad4_toHex_length (n : Nat) (h : n ≤ 65535) : (pad4 (toHex n)).length = 4 := by
  rw [toHex_eq_wf]
  exact pad4_length _ (length_hexDigitsWF n 3 (by omega))

theorem parseHex4_pad4_toHex (n : Nat) (h : n ≤ 65535) :
    parseHex4 (pad4 (toHex n)) = some (n : Int) := by
  rw [toHex_eq_wf]
  apply parseHex4_of_digits
  · simp [pad4]
    intro h1 h2
    exact absurd h2 (hexDigitsWF_ne_nil n)
  · intro c hc
    rw [pad4, List.mem_append] at hc
    rcases hc with hc | hc
    · rw [List.eq_of_mem_replicate hc]
      exact ⟨by decide, by decide⟩
    · obtain ⟨d, hd, rfl⟩ := mem_hexDigitsWF n c hc
      exact hexChar_ne_sign d hd
  · rw [pad4, parseHexDigits_append, parseHexDigits_replicate]
    simp only [Nat.zero_mul, Option.some_bind]
    rw [parseHexDigits_hexDigitsWF]
    simp

theorem take_append_len {α : Type} (l1 l2 : List α) (n : Nat) (h : n = l1.length) :
    (l1 ++ l2).take n = l1 := by
  subst h
  induction l1 with
  | nil => simp
  | cons a t ih => simp [ih]

theorem drop_append_len {α : Type} (l1 l2 : List α) (n : Nat) (h : n = l1.length) :
    (l1 ++ l2).drop n = l2 := by
  subst h
  induction l1 with
  | nil => simp
  | cons a t ih => simp [ih]

theorem emitPkt_length (m : Bytes) (hne : m ≠ []) (h : m.length ≤ 65530) :
    (emitPkt m).length = 4 + m.length + 1 := by
  rw [emitPkt, if_neg hne]
  simp [pad4_toHex_length (4 + m.length + 1) (by omega)]
  omega

/-- Decoding inverts encoding while more input follows: the key lemma behind
the round-trip property and the advertisement re-parsing arguments. -/
theorem readPkt_encode (m rest : Bytes) (h : m.length ≤ 65530) :
    readPkt (emitPkt m ++ rest) = .ok m rest := by
  by_cases hm : m = []
  · subst hm
    have he : emitPkt [] = ['0', '0', '0', '0'] := by decide
    rw [he, readPkt]
    rw [if_neg (by simp)]
    rw [take_append_len _ _ 4 (by decide)]
    rw [show parseHex4 ['0', '0', '0', '0'] = some 0 from by decide]
    rw [drop_append_len _ _ 4 (by decide)]
    rfl
  · have hlen : (emitPkt m).length = 4 + m.length + 1 := emitPkt_length m hm h
    have hpadlen : (pad4 (toHex (4 + m.length + 1))).length = 4 := pad4_toHex_length _ (by omega)
    have hsplit : emitPkt m = pad4 (toHex (4 + m.length + 1)) ++ (m ++ ['\x0a']) := by
      rw [emitPkt, if_neg hm, List.append_assoc]
    have htake4 : ((emitPkt m ++ rest).take 4) = pad4 (toHex (4 + m.length + 1)) := by
      rw [hsplit, List.append_assoc, take_append_len _ _ 4 hpadlen.symm]
    have h1 : ¬ (emitPkt m ++ rest).length < 4 := by
      simp only [List.length_append, hlen]; omega
    have h2 : ¬ ((4 + m.length + 1 : Nat) : Int) = 0 := by omega
    have h3 : ¬ (((emitPkt m ++ rest).length : Nat) : Int) < ((4 + m.length + 1 : Nat) : Int) := by
      simp only [List.length_append, hlen]; push_cast; omega
    have h4 : ¬ ((4 + m.length + 1 : Nat) : Int) < 4 := by omega
    rw [readPkt, if_neg h1, htake4, parseHex4_pad4_toHex _ (by omega)]
    simp only [h2, h3, h4, if_false, ite_false]
    have htoNat : ((4 + m.length + 1 : Nat) : Int).toNat = 4 + m.length + 1 := by omega
    rw [htoNat]
    have htake : (emitPkt m ++ rest).take (4 + m.length + 1) = emitPkt m :=
      take_append_len _ _ _ hlen.symm
    have hdropAll : (emitPkt m ++ rest).drop (4 + m.length + 1) = rest :=
      drop_append_len _ _ _ hlen.symm
    rw [htake, hdropAll, hsplit, drop_append_len _ _ 4 hpadlen.symm]
    have htrim : trimNewline (m ++ ['\x0a']) = m := by
      rw [trimNewline, if_pos (by simp), List.dropLast_concat]
    rw [htrim]

/-! ### Cursor progress and loop lemmas -/

theorem readPkt_ok_lt (data p rest : Bytes) (h : readPkt data = .ok p rest) :
    rest.length < data.length := by
  rw [readPkt] at h
  by_cases h4 : data.length < 4
  · rw [if_pos h4] at h; exact absurd h (by simp)
  · rw [if_neg h4] at h
    cases hp : parseHex4 (data.take 4) with
    | none => rw [hp] at h; exact absurd h (by simp)
    | some size =>
      simp only [hp] at h
      by_cases hz : size = 0
      · rw [if_pos hz] at h
        injection h with h1 h2
        subst h2
        simp only [List.length_drop]
        omega
      · rw [if_neg hz] at h
        by_cases hlt : (data.length : Int) < size
        · rw [if_pos hlt] at h; exact absurd h (by simp)
        · rw [if_neg hlt] at h
          by_cases hs4 : size < 4
          · rw [if_pos hs4] at h; exact absurd h (by simp)
          · rw [if_neg hs4] at h
            injection h with h1 h2
            subst h2
            simp only [List.length_drop]
            omega

theorem readRef_blank_lt (data rest : Bytes) (h : readRef data = .blank rest) :
    rest.length < data.length := by
  rw [readRef] at h
  cases hp : readPkt data with
  | panicked => rw [hp] at h; exact absurd h (by simp)
  | notOk => rw [hp] at h; exact absurd h (by simp)
  | ok line r =>
    simp only [hp] at h
    have hr : r = rest := by
      by_cases hl : line = []
      · rw [if_pos hl] at h
        injection h
      · rw [if_neg hl] at h
        split at h <;> (try split at h) <;> simp_all
    subst hr
    exact readPkt_ok_lt data line r hp

theorem readRef_entry_lt (data hh n rest : Bytes) (o : List Bytes)
    (h : readRef data = .entry hh n o rest) : rest.length < data.length := by
  rw [readRef] at h
  cases hp : readPkt data with
  | panicked => rw [hp] at h; exact absurd h (by simp)
  | notOk => rw [hp] at h; exact absurd h (by simp)
  | ok line r =>
    simp only [hp] at h
    have hr : r = rest := by
      by_cases hl : line = []
      · rw [if_pos hl] at h
        exact absurd h (by simp)
      · rw [if_neg hl] at h
        split at h <;> (try split at h) <;> simp_all
    subst hr
    exact readPkt_ok_lt data line r hp

theorem skipBlanksCore_congr : ∀ (f1 f2 : Nat) (data : Bytes), data.length < f1 →
    data.length < f2 → skipBlanksCore f1 data = skipBlanksCore f2 data := by
  intro f1
  induction f1 with
  | zero => intro f2 data h1 h2; omega
  | succ f1 ih =>
    intro f2 data h1 h2
    cases f2 with
    | zero => omega
    | succ f2 =>
      rw [skipBlanksCore, skipBlanksCore]
      cases hr : readRef data with
      | blank rest =>
        have hlt := readRef_blank_lt data rest hr
        exact ih f2 rest (by omega) (by omega)
      | entry hh n o rest =>
        have hlt := readRef_entry_lt data hh n rest o hr
        by_cases hn : n = []
        · simp only [if_pos hn]
          exact ih f2 rest (by omega) (by omega)
        · simp only [if_neg hn]
      | fail b => rfl
      | panicked => rfl

theorem skipBlanks_blank (data rest : Bytes) (h : readRef data = .blank rest) :
    skipBlanks data = skipBlanks rest := by
  have hlt := readRef_blank_lt data rest h
  rw [skipBlanks, skipBlanks, skipBlanksCore]
  simp only [h]
  exact skipBlanksCore_congr data.length (rest.length + 1) rest (by omega) (by omega)

theorem skipBlanks_skipEmpty (data hh rest : Bytes) (o : List Bytes)
    (h : readRef data = .entry hh [] o rest) :
    skipBlanks data = skipBlanks rest := by
  have hlt := readRef_entry_lt data hh [] rest o h
  rw [skipBlanks, skipBlanks, skipBlanksCore]
  simp only [h, if_pos rfl]
  exact skipBlanksCore_congr data.length (rest.length + 1) rest (by omega) (by omega)

theorem skipBlanks_entry (data hh n rest : Bytes) (o : List Bytes)
    (h : readRef data = .entry hh n o rest) (hn : n ≠ []) :
    skipBlanks data = .entry hh n o rest := by
  rw [skipBlanks, skipBlanksCore]
  simp only [h, if_neg hn]

theorem skipBlanks_fail (data b : Bytes) (h : readRef data = .fail b) :
    skipBlanks data = .fail b := by
  rw [skipBlanks, skipBlanksCore]
  simp only [h]

/-- The first-reference loop never reports a blank result: the `.blank` case
of the match on `skipBlanks` in `infoRefsBody` is dead code. -/
theorem skipBlanksCore_ne_blank : ∀ (fuel : Nat) (data r : Bytes),
    skipBlanksCore fuel data ≠ .blank r := by
  intro fuel
  induction fuel with
  | zero => intro data r; simp [skipBlanksCore]
  | succ fuel ih =>
    intro data r
    rw [skipBlanksCore]
    cases hr : readRef data with
    | blank rest => exact ih rest r
    | entry hh n o rest =>
      by_cases hn : n = []
      · simp only [if_pos hn]
        exact ih rest r
      · simp only [if_neg hn]
        simp
    | fail b => simp
    | panicked => simp

/-! ### Split lemmas and reference-line parsing -/

theorem splitOnCharAux_not_mem (sep : Char) (l : List Char) (h : sep ∉ l) :
    splitOnCharAux sep l = (l, []) := by
  induction l with
  | nil => rfl
  | cons c cs ih =>
    have hc : c ≠ sep := fun he => h (he ▸ List.mem_cons_self c cs)
    have hcs : sep ∉ cs := fun hm => h (List.mem_cons_of_mem c hm)
    simp only [splitOnCharAux, ih hcs, if_neg hc]

theorem splitOnChar_not_mem (sep : Char) (l : List Char) (h : sep ∉ l) :
    splitOnChar sep l = [l] := by
  simp [splitOnChar, splitOnCharAux_not_mem sep l h]

theorem splitOnCharAux_mid (sep : Char) (l1 l2 : List Char) (h : sep ∉ l1) :
    splitOnCharAux sep (l1 ++ sep :: l2) =
      (l1, (splitOnCharAux sep l2).1 :: (splitOnCharAux sep l2).2) := by
  induction l1 with
  | nil => simp [splitOnCharAux]
  | cons c cs ih =>
    have hc : c ≠ sep := fun he => h (he ▸ List.mem_cons_self c cs)
    have hcs : sep ∉ cs := fun hm => h (List.mem_cons_of_mem c hm)
    simp only [List.cons_append, splitOnCharAux, List.append_eq, ih hcs, if_neg hc]

theorem splitOnChar_mid (sep : Char) (l1 l2 : List Char) (h : sep ∉ l1) :
    splitOnChar sep (l1 ++ sep :: l2) = l1 :: splitOnChar sep l2 := by
  simp [splitOnChar, splitOnCharAux_mid sep l1 l2 h]

theorem splitOnChar_pair (sep : Char) (l1 l2 : List Char) (h1 : sep ∉ l1) (h2 : sep ∉ l2) :
    splitOnChar sep (l1 ++ sep :: l2) = [l1, l2] := by
  rw [splitOnChar_mid sep l1 l2 h1, splitOnChar_not_mem sep l2 h2]

theorem splitOnCharAux_sub (sep : Char) (l : List Char) :
    (∀ c ∈ (splitOnCharAux sep l).1, c ∈ l) ∧
    (∀ p ∈ (splitOnCharAux sep l).2, ∀ c ∈ p, c ∈ l) := by
  induction l with
  | nil => simp [splitOnCharAux]
  | cons a as ih =>
    simp only [splitOnCharAux]
    by_cases ha : a = sep
    · simp only [if_pos ha]
      refine ⟨by simp, ?_⟩
      intro p hp c hc
      rcases List.mem_cons.mp hp with rfl | hp
      · exact List.mem_cons_of_mem a (ih.1 c hc)
      · exact List.mem_cons_of_mem a (ih.2 p hp c hc)
    · simp only [if_neg ha]
      refine ⟨?_, ?_⟩
      · intro c hc
        rcases List.mem_cons.mp hc with rfl | hc
        · exact List.mem_cons_self c _
        · exact List.mem_cons_of_mem a (ih.1 c hc)
      · intro p hp c hc
        exact List.mem_cons_of_mem a (ih.2 p hp c hc)

theorem mem_splitOnChar_sub (sep : Char) (l p : List Char) (hp : p ∈ splitOnChar sep l) :
    ∀ c ∈ p, c ∈ l := by
  rcases List.mem_cons.mp hp with rfl | hp
  · exact (splitOnCharAux_sub sep l).1
  · exact (splitOnCharAux_sub sep l).2 p hp

/-- `readRef` on an encoded flush record: the blank result. -/
theorem readRef_flush (r : Bytes) : readRef (emitPkt [] ++ r) = .blank r := by
  have hok := readPkt_encode [] r (by simp)
  rw [readRef]
  simp only [hok]
  rfl

/-- `readRef` on an encoded plain reference line (no capability trailer). -/
theorem readRef_line (h n rest : Bytes) (hh : goodTok h) (hn : goodTok n)
    (hlen : h.length + 1 + n.length ≤ 65530) :
    readRef (emitPkt (h ++ ' ' :: n) ++ rest) = .entry h n [] rest := by
  have hplen : (h ++ ' ' :: n).length ≤ 65530 := by simp; omega
  have hok := readPkt_encode (h ++ ' ' :: n) rest hplen
  have hne : (h ++ ' ' :: n) ≠ [] := by simp
  have hnul : '\x00' ∉ (h ++ ' ' :: n) := by
    simp only [List.mem_append, List.mem_cons, not_or]
    exact ⟨hh.2.2, by decide, hn.2.2⟩
  have hsplit0 : splitOnChar '\x00' (h ++ ' ' :: n) = [h ++ ' ' :: n] :=
    splitOnChar_not_mem _ _ hnul
  have hsplitSp : splitOnChar ' ' (h ++ ' ' :: n) = [h, n] :=
    splitOnChar_pair ' ' h n hh.2.1 hn.2.1
  rw [readRef]
  simp only [hok, if_neg hne, hsplit0, hsplitSp]

/-- `readRef` on an encoded first reference line carrying a capability
trailer. -/
theorem readRef_firstLine (h n c rest : Bytes) (hh : goodTok h) (hn : goodTok n)
    (hc : '\x00' ∉ c) (hlen : (refLineBytes h n (some c)).length ≤ 65530) :
    readRef (emitPkt (refLineBytes h n (some c)) ++ rest) =
      .entry h n (splitOnChar ' ' c) rest := by
  have hshape : refLineBytes h n (some c) = (h ++ ' ' :: n) ++ '\x00' :: c := by
    simp [refLineBytes]
  have hplen : (refLineBytes h n (some c)).length ≤ 65530 := hlen
  have hok := readPkt_encode (refLineBytes h n (some c)) rest hplen
  have hne : refLineBytes h n (some c) ≠ [] := by
    rw [hshape]; simp
  have hnul1 : '\x00' ∉ (h ++ ' ' :: n) := by
    simp only [List.mem_append, List.mem_cons, not_or]
    exact ⟨hh.2.2, by decide, hn.2.2⟩
  have hsplit0 : splitOnChar '\x00' (refLineBytes h n (some c)) = [h ++ ' ' :: n, c] := by
    rw [hshape]
    exact splitOnChar_pair '\x00' _ c hnul1 hc
  have hsplitSp : splitOnChar ' ' (h ++ ' ' :: n) = [h, n] :=
    splitOnChar_pair ' ' h n hh.2.1 hn.2.1
  rw [readRef]
  simp only [hok, if_neg hne, hsplit0, hsplitSp]

/-! ### Collecting and re-emitting the remaining references -/

/-- The map `others` built by the collection loop, starting from `m`. -/
def foldInsert (m : List (Bytes × Bytes)) (l : List (Bytes × Bytes)) : List (Bytes × Bytes) :=
  l.foldl (fun acc p => mInsert acc p.2 p.1) m

theorem readOthersCore_encode : ∀ (l : List (Bytes × Bytes)) (fuel : Nat)
    (m : List (Bytes × Bytes)) (o : List Bytes),
    (othersBytes l ++ emitPkt []).length < fuel →
    (∀ p ∈ l, goodTok p.1 ∧ goodTok p.2 ∧ p.1.length + 1 + p.2.length ≤ 65530) →
    readOthersCore fuel (othersBytes l ++ emitPkt []) m o =
      .done (foldInsert m l) (o ++ l.map Prod.snd) [] := by
  intro l
  induction l with
  | nil =>
    intro fuel m o hfuel hwf
    cases fuel with
    | zero => omega
    | succ fuel =>
      rw [readOthersCore]
      simp only [othersBytes, List.map_nil, List.flatten_nil, List.nil_append]
      have hr : readRef (emitPkt []) = .blank [] := by
        have := readRef_flush []
        simpa using this
      simp only [hr]
      simp [foldInsert]
  | cons p l ih =>
    intro fuel m o hfuel hwf
    have hd : othersBytes (p :: l) ++ emitPkt [] =
        emitPkt (p.1 ++ ' ' :: p.2) ++ (othersBytes l ++ emitPkt []) := by
      simp [othersBytes, List.append_assoc]
    obtain ⟨hh, hn, hl⟩ := hwf p (List.mem_cons_self p l)
    cases fuel with
    | zero => omega
    | succ fuel =>
      rw [hd, readOthersCore]
      have hr := readRef_line p.1 p.2 (othersBytes l ++ emitPkt []) hh hn hl
      simp only [hr, if_neg hh.1]
      have hlt : (othersBytes l ++ emitPkt []).length < fuel := by
        have := readRef_entry_lt _ _ _ _ _ hr
        rw [hd] at hfuel
        omega
      rw [ih fuel (mInsert m p.2 p.1) (o ++ [p.2]) hlt
        (fun q hq => hwf q (List.mem_cons_of_mem p hq))]
      simp [foldInsert, List.append_assoc]

theorem readOthers_encode (l : List (Bytes × Bytes))
    (hwf : ∀ p ∈ l, goodTok p.1 ∧ goodTok p.2 ∧ p.1.length + 1 + p.2.length ≤ 65530) :
    readOthers (othersBytes l ++ emitPkt []) [] [] =
      .done (foldInsert [] l) (l.map Prod.snd) [] := by
  have := readOthersCore_encode l ((othersBytes l ++ emitPkt []).length + 1) [] []
    (by omega) hwf
  simpa [readOthers] using this

theorem mLookup_foldInsert_not_mem (l : List (Bytes × Bytes)) (m : List (Bytes × Bytes))
    (n : Bytes) (h : n ∉ l.map Prod.snd) :
    mLookup (foldInsert m l) n = mLookup m n := by
  induction l generalizing m with
  | nil => rfl
  | cons q l ih =>
    simp only [List.map_cons, List.mem_cons, not_or] at h
    rw [foldInsert, List.foldl_cons]
    have := ih (mInsert m q.2 q.1) h.2
    rw [foldInsert] at this
    rw [this]
    exact if_neg (fun he => h.1 he.symm)

theorem mLookup_foldInsert (l : List (Bytes × Bytes)) (m : List (Bytes × Bytes))
    (hsh n : Bytes) (hnd : (l.map Prod.snd).Nodup) (hmem : (hsh, n) ∈ l) :
    mLookup (foldInsert m l) n = some hsh := by
  induction l generalizing m with
  | nil => exact absurd hmem (List.not_mem_nil _)
  | cons q l ih =>
    simp only [List.map_cons, List.nodup_cons] at hnd
    rw [foldInsert, List.foldl_cons]
    rcases List.mem_cons.mp hmem with rfl | hmem2
    · have hnot : n ∉ l.map Prod.snd := hnd.1
      have := mLookup_foldInsert_not_mem l (mInsert m n hsh) n hnot
      rw [foldInsert] at this
      have hgoal : mLookup (List.foldl (fun acc p => mInsert acc p.2 p.1)
          (mInsert m n hsh) l) n = some hsh := by
        rw [this, mInsert, mLookup, if_pos rfl]
      exact hgoal
    · have := ih (mInsert m q.2 q.1) hnd.2 hmem2
      rw [foldInsert] at this
      exact this

theorem mLookup_foldInsert_none (l : List (Bytes × Bytes)) (n : Bytes)
    (h : n ∉ l.map Prod.snd) : mLookup (foldInsert [] l) n = none := by
  rw [mLookup_foldInsert_not_mem l [] n h]
  rfl

theorem emitLoop_map (others : List (Bytes × Bytes)) (l : List (Bytes × Bytes))
    (h : ∀ p ∈ l, mLookup others p.2 = some p.1) :
    emitLoop others (l.map Prod.snd) = .inl (othersBytes l) := by
  induction l with
  | nil => simp [emitLoop, othersBytes]
  | cons p l ih =>
    simp only [List.map_cons, emitLoop, h p (List.mem_cons_self p l)]
    rw [ih (fun q hq => h q (List.mem_cons_of_mem p hq))]
    simp [othersBytes]

theorem emitLoop_missing (others : List (Bytes × Bytes)) :
    ∀ order : List Bytes, (∃ n ∈ order, mLookup others n = none) →
    ∃ b, emitLoop others order = .inr b := by
  intro order
  induction order with
  | nil => rintro ⟨n, hn, _⟩; exact absurd hn (List.not_mem_nil n)
  | cons o os ih =>
    rintro ⟨n, hn, hnone⟩
    cases hl : mLookup others o with
    | none => exact ⟨[], by simp [emitLoop, hl]⟩
    | some hh =>
      rcases List.mem_cons.mp hn with rfl | hn
      · rw [hl] at hnone; exact absurd hnone (by simp)
      · obtain ⟨b, hb⟩ := ih ⟨n, hn, hnone⟩
        exact ⟨emitPkt (hh ++ ' ' :: o) ++ b, by simp [emitLoop, hl, hb]⟩

theorem mem_insertStr (x : Bytes) (l : List Bytes) (a : Bytes) :
    a ∈ insertStr x l ↔ a = x ∨ a ∈ l := by
  induction l with
  | nil => simp [insertStr]
  | cons y ys ih =>
    rw [insertStr]
    by_cases hle : lexLe x y
    · simp [if_pos hle]
    · rw [if_neg hle]
      simp [ih]
      tauto

theorem mem_sortStrings (l : List Bytes) (a : Bytes) : a ∈ sortStrings l ↔ a ∈ l := by
  induction l with
  | nil => simp [sortStrings]
  | cons x xs ih =>
    rw [sortStrings, List.foldr_cons]
    rw [show List.foldr insertStr [] xs = sortStrings xs from rfl]
    rw [mem_insertStr]
    simp [ih]

theorem mLookup_mDelete_self (m : List (Bytes × Bytes)) (k : Bytes) :
    mLookup (mDelete m k) k = none := by
  induction m with
  | nil => rfl
  | cons p rest ih =>
    by_cases hp : p.1 = k
    · rw [mDelete, List.filter_cons, if_neg (by simp [hp])]
      exact ih
    · rw [mDelete, List.filter_cons, if_pos (by simp [hp])]
      rw [mLookup, if_neg hp]
      exact ih

/-! ### Pipeline reduction on encoded advertisements -/

/-- Skipping the blank separator and reading the first reference line of an
encoded advertisement. -/
theorem skipBlanks_advTail (h0 n0 : Bytes) (caps : Option Bytes) (tail : Bytes)
    (hh : goodTok h0) (hn : goodTok n0) (hc : '\x00' ∉ caps.getD [])
    (hlen : (refLineBytes h0 n0 caps).length ≤ 65530) :
    skipBlanks (emitPkt [] ++ (emitPkt (refLineBytes h0 n0 caps) ++ tail)) =
      .entry h0 n0 (capOpts caps) tail := by
  rw [skipBlanks_blank _ _ (readRef_flush _)]
  cases caps with
  | none =>
    have hline : refLineBytes h0 n0 none = h0 ++ ' ' :: n0 := by
      simp [refLineBytes]
    have hlen2 : h0.length + 1 + n0.length ≤ 65530 := by
      rw [hline] at hlen
      simp at hlen
      omega
    have hrr : readRef (emitPkt (refLineBytes h0 n0 none) ++ tail) =
        .entry h0 n0 [] tail := by
      rw [hline]
      exact readRef_line h0 n0 tail hh hn hlen2
    rw [skipBlanks_entry _ _ _ _ _ hrr hn.1]
    rfl
  | some c =>
    have hcnul : '\x00' ∉ c := by simpa using hc
    have hrr := readRef_firstLine h0 n0 c tail hh hn hcnul hlen
    rw [skipBlanks_entry _ _ _ _ _ hrr hn.1]
    rfl

theorem infoRefsBody_encode_stage (a : Adv) (wf : advWF a) :
    infoRefsBody (encodeAdv a) =
      (match mLookup (foldInsert [] a.others) target with
       | none => .resp 500 ("invalid target reference: ".data ++ target)
       | some tHash =>
         if a.firstName = "HEAD".data then
           emitAll tHash a.firstName (rewriteOptions (capOpts a.firstCaps))
             (foldInsert [] a.others) (a.others.map Prod.snd)
         else
           emitAll tHash target (rewriteOptions (capOpts a.firstCaps))
             (mDelete (mInsert (foldInsert [] a.others) target tHash) target)
             (sortStrings (a.others.map Prod.snd ++ [target]))) := by
  obtain ⟨wfh, wfn, wfc, wflen, wfo, wfnd⟩ := wf
  have hshape : encodeAdv a = emitPkt serviceLine ++
      (emitPkt [] ++ (emitPkt (refLineBytes a.firstHash a.firstName a.firstCaps) ++
        (othersBytes a.others ++ emitPkt []))) := by
    rw [encodeAdv]
    simp [List.append_assoc]
  have h1 := readPkt_encode serviceLine
    (emitPkt [] ++ (emitPkt (refLineBytes a.firstHash a.firstName a.firstCaps) ++
      (othersBytes a.others ++ emitPkt []))) (by decide)
  have h2 := skipBlanks_advTail a.firstHash a.firstName a.firstCaps
    (othersBytes a.others ++ emitPkt []) wfh wfn wfc wflen
  rw [hshape, infoRefsBody]
  simp only [h1]
  simp only [if_true]
  simp only [h2]
  rw [readOthers_encode a.others wfo]

/-- The HEAD special case in full: the first entry keeps its name (`HEAD`),
takes the target's hash, the capability list is rewritten, and the remaining
records are re-emitted in upstream order with their original hashes. -/
theorem infoRefsBody_head (a : Adv) (tH : Bytes) (wf : advWF a)
    (hfirst : a.firstName = "HEAD".data) (ht : (tH, target) ∈ a.others) :
    infoRefsBody (encodeAdv a) = .resp 200
      (emitPkt serviceLine ++ emitPkt [] ++
        emitPkt (tH ++ ' ' :: "HEAD".data ++ '\x00' ::
          joinSpace (rewriteOptions (capOpts a.firstCaps))) ++
        othersBytes a.others ++ emitPkt []) := by
  have wfnd : (a.others.map Prod.snd).Nodup := wf.2.2.2.2.2
  have hlook := mLookup_foldInsert a.others [] tH target wfnd ht
  rw [infoRefsBody_encode_stage a wf]
  simp only [hlook]
  rw [if_pos hfirst]
  have hemit := emitLoop_map (foldInsert [] a.others) a.others
    (fun p hp => mLookup_foldInsert a.others [] p.1 p.2 wfnd (by rwa [Prod.mk.eta]))
  rw [emitAll]
  simp only [hemit, hfirst]

/-- Reading the remaining entries back through the collected map recovers
them exactly when names are distinct. -/
theorem map_lookup_recover (l : List (Bytes × Bytes)) (hnd : (l.map Prod.snd).Nodup) :
    (l.map Prod.snd).map (fun nm => ((mLookup (foldInsert [] l) nm).getD [], nm)) = l := by
  rw [List.map_map]
  have hpt : ∀ p ∈ l, ((fun nm => ((mLookup (foldInsert [] l) nm).getD [], nm)) ∘ Prod.snd) p
      = id p := by
    intro p hp
    have := mLookup_foldInsert l [] p.1 p.2 hnd (by rwa [Prod.mk.eta])
    simp [this]
  rw [List.map_congr_left hpt, List.map_id]

/-- Decoding an encoded advertisement body yields the first entry followed by
the remaining entries. -/
theorem advEntryPairs_encode (h0 n0 : Bytes) (caps : Option Bytes) (l : List (Bytes × Bytes))
    (hh : goodTok h0) (hn : goodTok n0) (hc : '\x00' ∉ caps.getD [])
    (hlen : (refLineBytes h0 n0 caps).length ≤ 65530)
    (hwf : ∀ p ∈ l, goodTok p.1 ∧ goodTok p.2 ∧ p.1.length + 1 + p.2.length ≤ 65530)
    (hnd : (l.map Prod.snd).Nodup) :
    advEntryPairs (emitPkt serviceLine ++ (emitPkt [] ++
        (emitPkt (refLineBytes h0 n0 caps) ++ (othersBytes l ++ emitPkt [])))) =
      some ((h0, n0) :: l) := by
  have h1 := readPkt_encode serviceLine
    (emitPkt [] ++ (emitPkt (refLineBytes h0 n0 caps) ++ (othersBytes l ++ emitPkt [])))
    (by decide)
  have h2 := skipBlanks_advTail h0 n0 caps (othersBytes l ++ emitPkt []) hh hn hc hlen
  rw [advEntryPairs]
  simp only [h1, if_true, h2]
  rw [readOthers_encode l hwf]
  simp only [map_lookup_recover l hnd]

/-- NUL does not occur in a space-join of NUL-free parts. -/
theorem nul_not_mem_joinSpace (opts : List Bytes) (h : ∀ p ∈ opts, '\x00' ∉ p) :
    '\x00' ∉ joinSpace opts := by
  induction opts with
  | nil => simp [joinSpace]
  | cons x xs ih =>
    cases xs with
    | nil => simpa [joinSpace] using h x (List.mem_cons_self x [])
    | cons y ys =>
      rw [joinSpace]
      simp only [List.mem_append, List.mem_cons, not_or]
      refine ⟨h x (List.mem_cons_self x _), by decide, ?_⟩
      exact ih (fun p hp => h p (List.mem_cons_of_mem x hp))

/-- The capability rewrite preserves NUL-freeness. -/
theorem nul_not_mem_rewriteOptions (opts : List Bytes) (h : ∀ p ∈ opts, '\x00' ∉ p) :
    ∀ p ∈ rewriteOptions opts, '\x00' ∉ p := by
  intro p hp
  rw [rewriteOptions, List.mem_map] at hp
  obtain ⟨o, ho, rfl⟩ := hp
  by_cases hpre : symrefMark.isPrefixOf o
  · rw [if_pos hpre]
    decide
  · rw [if_neg hpre]
    exact h o ho

/-- The split capability list of a NUL-free trailer is NUL-free. -/
theorem nul_not_mem_capOpts (caps : Option Bytes) (h : '\x00' ∉ caps.getD []) :
    ∀ p ∈ capOpts caps, '\x00' ∉ p := by
  cases caps with
  | none => simp [capOpts]
  | some c =>
    intro p hp hmem
    exact h (mem_splitOnChar_sub ' ' c p hp '\x00' hmem)

/-- In the non-HEAD branch the handler always panics: the promoted target
name is appended to `order` (it already occurs there) while its map entry is
deleted, so the emit loop's lookup fails. -/
theorem infoRefsBody_nonhead (a : Adv) (tH : Bytes) (wf : advWF a)
    (hfirst : a.firstName ≠ "HEAD".data) (ht : (tH, target) ∈ a.others) :
    ∃ b, infoRefsBody (encodeAdv a) = .panicked b := by
  have wfnd : (a.others.map Prod.snd).Nodup := wf.2.2.2.2.2
  have hlook := mLookup_foldInsert a.others [] tH target wfnd ht
  rw [infoRefsBody_encode_stage a wf]
  simp only [hlook]
  rw [if_neg hfirst]
  have htmem : target ∈ sortStrings (a.others.map Prod.snd ++ [target]) := by
    rw [mem_sortStrings]
    simp
  have hnone : mLookup (mDelete (mInsert (foldInsert [] a.others) target tH) target)
      target = none := mLookup_mDelete_self _ target
  obtain ⟨b, hb⟩ := emitLoop_missing _ _ ⟨target, htmem, hnone⟩
  rw [emitAll]
  simp only [hb]
  exact ⟨_, rfl⟩

/-- When the configured target is absent from the remaining references the
body is exactly the 500 diagnostic: nothing was emitted before it. -/
theorem infoRefsBody_missing_target (a : Adv) (wf : advWF a)
    (ht : target ∉ a.others.map Prod.snd) :
    infoRefsBody (encodeAdv a) = .resp 500 ("invalid target reference: ".data ++ target) := by
  rw [infoRefsBody_encode_stage a wf]
  simp only [mLookup_foldInsert_none a.others target ht]

/-- The 403 gate accepts exactly the single-parameter query
`service=git-upload-pack`. -/
theorem checkQuery_eq_false_iff (q : List (Bytes × List Bytes)) :
    checkQuery q = false ↔ q = exactQuery := by
  constructor
  · intro h
    rw [checkQuery] at h
    cases hq : lookupQ q "service".data with
    | none => rw [hq] at h; simp at h
    | some vs =>
      rw [hq] at h
      simp only [Bool.or_eq_false_iff, decide_eq_false_iff_not, not_lt, ne_eq,
        Decidable.not_not] at h
      obtain ⟨⟨hlen, hvs⟩, hveq⟩ := h
      cases q with
      | nil => rw [lookupQ] at hq; exact absurd hq (by simp)
      | cons p t =>
        cases t with
        | nil =>
          rw [lookupQ] at hq
          by_cases hp : p.1 = "service".data
          · rw [if_pos hp] at hq
            injection hq with hq
            rw [exactQuery]
            have hpair : p = (p.1, p.2) := by rw [Prod.mk.eta]
            rw [hpair, hp, hq, hveq]
          · rw [if_neg hp] at hq
            rw [lookupQ] at hq
            exact absurd hq (by simp)
        | cons p2 t2 => simp at hlen
  · intro h
    subst h
    decide

theorem trimNewline_length_le (m : Bytes) : (trimNewline m).length ≤ m.length := by
  rw [trimNewline]
  split
  · simp [List.length_dropLast]
  · exact le_refl _

/-! ### Concrete example inputs -/

def aaa40 : Bytes := "aaaaaaaaaaaaaaaaaaaaaaaaaaaaaaaaaaaaaaaa".data

def bbb40 : Bytes := "bbbbbbbbbbbbbbbbbbbbbbbbbbbbbbbbbbbbbbbb".data

def ccc40 : Bytes := "cccccccccccccccccccccccccccccccccccccccc".data

/-- Upstream advertisement whose first reference is a plain branch (not
`HEAD`) and which lists the configured target. -/
def c1input : Bytes := emitPkt serviceLine ++ emitPkt [] ++
  emitPkt (aaa40 ++ " refs/heads/main".data) ++
  emitPkt (ccc40 ++ " refs/heads/go".data) ++ emitPkt []

/-- Small HEAD-case advertisement whose HEAD hash differs from the target's
hash. -/
def c4input : Bytes := emitPkt serviceLine ++ emitPkt [] ++
  emitPkt ("aaaa HEAD".data) ++ emitPkt ("bbbb refs/heads/go".data) ++ emitPkt []

/-- The upstream advertisement of the spec's end-to-end example (§8). -/
def c5input : Bytes := emitPkt serviceLine ++ emitPkt [] ++
  emitPkt (aaa40 ++ " HEAD\x00symref=HEAD:refs/heads/main capA capB".data) ++
  emitPkt (aaa40 ++ " refs/heads/main".data) ++
  emitPkt (bbb40 ++ " refs/heads/dev".data) ++
  emitPkt (ccc40 ++ " refs/heads/go".data) ++ emitPkt []

/-- The output the spec's example claims: `symref=HEAD:refs/heads/go` and
lexicographically sorted remaining entries. -/
def c5claimed : Bytes := emitPkt serviceLine ++ emitPkt [] ++
  emitPkt (ccc40 ++ " HEAD\x00symref=HEAD:refs/heads/go capA capB".data) ++
  emitPkt (bbb40 ++ " refs/heads/dev".data) ++
  emitPkt (ccc40 ++ " refs/heads/go".data) ++
  emitPkt (aaa40 ++ " refs/heads/main".data) ++ emitPkt []

/-- The output the code actually produces on the example: the whole symref
capability is replaced by `symref=refs/heads/go`, and the remaining entries
keep the upstream order (main, dev, go). -/
def c5actual : Bytes := emitPkt serviceLine ++ emitPkt [] ++
  emitPkt (ccc40 ++ " HEAD\x00symref=refs/heads/go capA capB".data) ++
  emitPkt (aaa40 ++ " refs/heads/main".data) ++
  emitPkt (bbb40 ++ " refs/heads/dev".data) ++
  emitPkt (ccc40 ++ " refs/heads/go".data) ++ emitPkt []

/-- Structured form of the §8 example advertisement. -/
def advEx : Adv where
  firstHash := aaa40
  firstName := "HEAD".data
  firstCaps := some "symref=HEAD:refs/heads/main capA capB".data
  others := [(aaa40, "refs/heads/main".data), (bbb40, "refs/heads/dev".data),
    (ccc40, "refs/heads/go".data)]

/-- An advertisement that does not list `refs/heads/go`. -/
def advNoGo : Adv where
  firstHash := aaa40
  firstName := "HEAD".data
  firstCaps := none
  others := [(bbb40, "refs/heads/dev".data)]

/-- A query with an extra parameter. -/
def rejQuery : List (Bytes × List Bytes) :=
  [("service".data, ["git-upload-pack".data]), ("extra".data, ["1".data])]

/-- A payload one byte past the largest encodable record body. -/
def bigP : Bytes := List.replicate 65531 'a'

/-! ### Claim theorems -/

/-- C1: on an advertisement whose first reference is not `HEAD` (here
`refs/heads/main`) and whose remaining set contains the target, the handler
does not emit the promoted-and-sorted advertisement the spec describes: after
writing the header, blank, and rewritten first entry, the emit loop looks up
the promoted name (appended to `order` after `first` was already reassigned
to the target, then deleted from `others`) and hits the Go `panic`.  The old
first entry is dropped entirely.  This contradicts the code's own comment
"This should never happen if the above is correct". -/
theorem claim1_nonhead_branch_panics :
    infoRefs exactQuery 200 c1input =
      .panicked (emitPkt serviceLine ++ emitPkt [] ++
        emitPkt (ccc40 ++ " refs/heads/go\x00".data)) := by
  decide

/-- C1 (general form): for every well-formed advertisement whose first
reference name is not `HEAD` and whose remaining set contains the target,
the handler body panics after a partial write. -/
theorem infoRefsBody_nonhead_general (a : Adv) (tH : Bytes) (wf : advWF a)
    (hfirst : a.firstName ≠ "HEAD".data) (ht : (tH, target) ∈ a.others) :
    ∃ b, infoRefsBody (encodeAdv a) = .panicked b :=
  infoRefsBody_nonhead a tH wf hfirst ht

/-- C2 (counterexample): on the 4-byte buffer `0001` the decoder neither
fails nor returns a payload: the parsed length 1 passes the
`len(data) >= int(size)` check and the slice `data[4:1]` raises a runtime
panic, an outcome outside the claim's enumeration. -/
theorem claim2_cex_small_length_panics : readPkt "0001".data = PktRes.panicked := by
  decide

/-- C2 (amended): the claimed trichotomy — not-ok on short input, invalid
hex, or insufficient data; empty-payload advance for length 0; payload
extraction with one-newline strip otherwise — holds for every buffer whose
parsed length field is 0 or at least 4.  For parsed lengths 1..3 or negative
the code panics instead (see `claim2_cex_small_length_panics`). -/
theorem claim2_readPkt_cases (data : Bytes)
    (hz : ∀ z : Int, parseHex4 (data.take 4) = some z → z = 0 ∨ 4 ≤ z) :
    (data.length < 4 → readPkt data = .notOk) ∧
    (4 ≤ data.length → parseHex4 (data.take 4) = none → readPkt data = .notOk) ∧
    (4 ≤ data.length → parseHex4 (data.take 4) = some 0 →
      readPkt data = .ok [] (data.drop 4)) ∧
    (∀ z : Int, 4 ≤ data.length → parseHex4 (data.take 4) = some z → z ≠ 0 →
      ((data.length : Int) < z → readPkt data = .notOk) ∧
      (z ≤ (data.length : Int) →
        readPkt data = .ok (trimNewline ((data.take z.toNat).drop 4))
          (data.drop z.toNat))) := by
  refine ⟨?_, ?_, ?_, ?_⟩
  · intro h
    rw [readPkt, if_pos h]
  · intro h4 hp
    rw [readPkt, if_neg (by omega)]
    simp only [hp]
  · intro h4 hp
    rw [readPkt, if_neg (by omega)]
    simp only [hp, if_true]
  · intro z h4 hp hz0
    have h4z : 4 ≤ z := by
      rcases hz z hp with h | h
      · exact absurd h hz0
      · exact h
    constructor
    · intro hlt
      rw [readPkt, if_neg (by omega)]
      simp only [hp]
      rw [if_neg hz0, if_pos hlt]
    · intro hle
      rw [readPkt, if_neg (by omega)]
      simp only [hp]
      rw [if_neg hz0, if_neg (by omega), if_neg (by omega)]

/-- C2 witness: a well-formed record decodes to its payload. -/
theorem claim2_readPkt_cases_witness :
    readPkt "0007hi\x0a".data = PktRes.ok "hi".data [] := by
  have hz : ∀ z : Int, parseHex4 (("0007hi\x0a".data : Bytes).take 4) = some z →
      z = 0 ∨ 4 ≤ z := by
    intro z hzz
    have h7 : parseHex4 (("0007hi\x0a".data : Bytes).take 4) = some 7 := by decide
    rw [h7] at hzz
    injection hzz with hzz
    omega
  have h := (claim2_readPkt_cases ("0007hi\x0a".data) hz).2.2.2 7 (by decide) (by decide)
    (by decide)
  have h2 := h.2 (by decide)
  exact h2.trans (by decide)

/-- C3 (counterexample): for the 65531-byte payload `bigP`, the length
`4+65531+1 = 0x10000` no longer fits in four hex digits; `%04x` emits five
digits, the decoder reads `1000` as the length, and the round-trip fails. -/
theorem claim3_cex_overflow_roundtrip :
    pktPayload (readPkt (emitPkt bigP)) ≠ some bigP := by
  have hlenp : bigP.length = 65531 := by rw [bigP, List.length_replicate]
  have hne : bigP ≠ [] := by
    intro hnil
    have := congrArg List.length hnil
    rw [hlenp] at this
    exact absurd this (by simp)
  have hn : 4 + bigP.length + 1 = 65536 := by rw [hlenp]
  have hpad : pad4 (toHex 65536) = "10000".data := by decide
  have hsplit : emitPkt bigP = "10000".data ++ (bigP ++ ['\x0a']) := by
    rw [emitPkt, if_neg hne, hn, hpad, List.append_assoc]
  have hlen : (emitPkt bigP).length = 65537 := by
    rw [hsplit, List.length_append, List.length_append, hlenp]
    rfl
  have htake : (emitPkt bigP).take 4 = "1000".data := by
    rw [hsplit]
    rw [show ("10000".data : Bytes) = "1000".data ++ ['0'] from by decide, List.append_assoc]
    exact take_append_len _ _ 4 (by decide)
  have hparse : parseHex4 ("1000".data) = some 4096 := by decide
  rw [readPkt, if_neg (by rw [hlen]; omega), htake]
  simp only [hparse]
  rw [if_neg (by omega), if_neg (by rw [hlen]; omega), if_neg (by omega)]
  rw [show ((4096 : Int)).toNat = 4096 from rfl]
  simp only [pktPayload]
  intro heq
  have heq2 : trimNewline (((emitPkt bigP).take 4096).drop 4) = bigP := by
    injection heq
  have hlen1 : ((((emitPkt bigP).take 4096).drop 4)).length = 4092 := by
    rw [List.length_drop, List.length_take, hlen]
    omega
  have hlen2 := trimNewline_length_le (((emitPkt bigP).take 4096).drop 4)
  have := congrArg List.length heq2
  rw [hlenp] at this
  omega

/-- C3 (amended): `decode(encode(p)) = p` — with the rest of the stream
passed through unchanged, hence also for any record sequence — for every
payload of at most 65530 bytes, i.e. whenever `4+len(p)+1` fits in the
4-digit length field; the empty payload round-trips through the flush
marker. -/
theorem claim3_roundtrip (p extra : Bytes) (h : p.length ≤ 65530) :
    readPkt (emitPkt p ++ extra) = .ok p extra :=
  readPkt_encode p extra h

/-- C3 witness. -/
theorem claim3_roundtrip_witness :
    readPkt (emitPkt "hi".data ++ "XY".data) = PktRes.ok "hi".data "XY".data :=
  claim3_roundtrip "hi".data "XY".data (by decide)

/-- C4 (counterexample): on a HEAD-case advertisement whose HEAD hash
(`aaaa`) differs from the target's hash (`bbbb`), the rewrite replaces the
first entry's hash, so the multisets of `(hash, name)` pairs of input and
output differ. -/
theorem claim4_cex_conservation :
    statusOf (infoRefsBody c4input) = some 200 ∧
    ¬ List.Perm ((advEntryPairs c4input).getD [])
      ((advEntryPairs (bodyOf (infoRefsBody c4input))).getD []) := by
  decide

/-- C4 (amended): conservation holds for the remaining entries — the output
advertisement decodes to exactly the input's remaining `(hash, name)` pairs,
in order — while the first entry keeps the name `HEAD` and takes the
target's hash (the one pair the rewrite is designed to change).  In the
non-HEAD case no advertisement is produced at all (see
`infoRefsBody_nonhead_general`). -/
theorem claim4_conservation_head (a : Adv) (tH : Bytes) (wf : advWF a)
    (hfirst : a.firstName = "HEAD".data) (ht : (tH, target) ∈ a.others)
    (hlen : (tH ++ ' ' :: "HEAD".data ++ '\x00' ::
      joinSpace (rewriteOptions (capOpts a.firstCaps))).length ≤ 65530) :
    advEntryPairs (encodeAdv a) = some ((a.firstHash, "HEAD".data) :: a.others) ∧
    ∃ body, infoRefsBody (encodeAdv a) = .resp 200 body ∧
      advEntryPairs body = some ((tH, "HEAD".data) :: a.others) := by
  obtain ⟨wfh, wfn, wfc, wflen, wfo, wfnd⟩ := wf
  have hhT : goodTok tH := (wfo (tH, target) ht).1
  have hnH : goodTok ("HEAD".data) := by decide
  constructor
  · have hparse := advEntryPairs_encode a.firstHash a.firstName a.firstCaps a.others
      wfh wfn wfc wflen wfo wfnd
    have hshape : encodeAdv a = emitPkt serviceLine ++ (emitPkt [] ++
        (emitPkt (refLineBytes a.firstHash a.firstName a.firstCaps) ++
          (othersBytes a.others ++ emitPkt []))) := by
      rw [encodeAdv]
      simp [List.append_assoc]
    rw [hshape, hparse, hfirst]
  · have hbody := infoRefsBody_head a tH ⟨wfh, wfn, wfc, wflen, wfo, wfnd⟩ hfirst ht
    refine ⟨_, hbody, ?_⟩
    have hL1 : (tH ++ ' ' :: "HEAD".data ++ '\x00' ::
        joinSpace (rewriteOptions (capOpts a.firstCaps))) =
        refLineBytes tH "HEAD".data
          (some (joinSpace (rewriteOptions (capOpts a.firstCaps)))) := rfl
    have hJnul : '\x00' ∉ joinSpace (rewriteOptions (capOpts a.firstCaps)) :=
      nul_not_mem_joinSpace _ (nul_not_mem_rewriteOptions _ (nul_not_mem_capOpts _ wfc))
    have hlen2 : (refLineBytes tH "HEAD".data
        (some (joinSpace (rewriteOptions (capOpts a.firstCaps))))).length ≤ 65530 := by
      rw [← hL1]
      exact hlen
    have hshape2 : emitPkt serviceLine ++ emitPkt [] ++
        emitPkt (tH ++ ' ' :: "HEAD".data ++ '\x00' ::
          joinSpace (rewriteOptions (capOpts a.firstCaps))) ++
        othersBytes a.others ++ emitPkt [] =
        emitPkt serviceLine ++ (emitPkt [] ++
          (emitPkt (refLineBytes tH "HEAD".data
            (some (joinSpace (rewriteOptions (capOpts a.firstCaps))))) ++
            (othersBytes a.others ++ emitPkt []))) := by
      rw [← hL1]
      simp [List.append_assoc]
    rw [hshape2]
    exact advEntryPairs_encode tH "HEAD".data
      (some (joinSpace (rewriteOptions (capOpts a.firstCaps)))) a.others
      hhT hnH hJnul hlen2 wfo wfnd

/-- C4 witness. -/
theorem claim4_conservation_head_witness :
    advEntryPairs (encodeAdv advEx) = some ((advEx.firstHash, "HEAD".data) :: advEx.others) ∧
    ∃ body, infoRefsBody (encodeAdv advEx) = .resp 200 body ∧
      advEntryPairs body = some ((ccc40, "HEAD".data) :: advEx.others) :=
  claim4_conservation_head advEx ccc40 (by decide) (by decide) (by decide) (by decide)

/-- C5 (counterexample): the code's output on the spec's §8 example differs
from the example's expected output: the code replaces the whole symref
capability with `symref=refs/heads/go` (not `symref=HEAD:refs/heads/go`) and
keeps the remaining entries in upstream order (main, dev, go) instead of
sorting them. -/
theorem claim5_cex_example_output :
    infoRefs exactQuery 200 c5input ≠ HRes.resp 200 c5claimed := by
  decide

/-- C5 (amended): on the §8 example input the output's first entry is
`ccc... HEAD NUL symref=refs/heads/go capA capB` and the remaining entries
follow in the upstream's original order — refs/heads/main, refs/heads/dev,
refs/heads/go — with their original hashes. -/
theorem claim5_example_actual_output :
    infoRefs exactQuery 200 c5input = HRes.resp 200 c5actual := by
  decide

/-- C6: for every well-formed advertisement whose first reference name is
the literal `HEAD` and whose remaining set contains the target, the
rewritten first entry keeps the name `HEAD` with the target's hash, and the
remaining entries are emitted in the upstream's original order with their
original hashes, followed by the flush record. -/
theorem claim6_head_case (a : Adv) (tH : Bytes) (wf : advWF a)
    (hfirst : a.firstName = "HEAD".data) (ht : (tH, target) ∈ a.others) :
    infoRefsBody (encodeAdv a) = .resp 200
      (emitPkt serviceLine ++ emitPkt [] ++
        emitPkt (tH ++ ' ' :: "HEAD".data ++ '\x00' ::
          joinSpace (rewriteOptions (capOpts a.firstCaps))) ++
        othersBytes a.others ++ emitPkt []) :=
  infoRefsBody_head a tH wf hfirst ht

/-- C6 witness. -/
theorem claim6_head_case_witness :
    infoRefsBody (encodeAdv advEx) = .resp 200
      (emitPkt serviceLine ++ emitPkt [] ++
        emitPkt (ccc40 ++ ' ' :: "HEAD".data ++ '\x00' ::
          joinSpace (rewriteOptions (capOpts advEx.firstCaps))) ++
        othersBytes advEx.others ++ emitPkt []) :=
  claim6_head_case advEx ccc40 (by decide) (by decide) (by decide)

/-- C7: every capability of the form `symref=<anything>` in the first
entry's capability list is rewritten to `symref=refs/heads/go`, and every
other capability passes through unchanged at its original position. -/
theorem claim7_symref_rewrite (opts : List Bytes) :
    (rewriteOptions opts).length = opts.length ∧
    ∀ i : Nat, (rewriteOptions opts).get? i = (opts.get? i).map
      (fun o => if symrefMark.isPrefixOf o then symrefMark ++ target else o) := by
  refine ⟨by simp [rewriteOptions], ?_⟩
  intro i
  rw [rewriteOptions, List.get?_map]

/-- C8: the handler accepts exactly the single-parameter query
`service=git-upload-pack`; any other parameter list is answered with 403 and
a body naming the query, independently of the upstream (the upstream is
never consulted: the 403 result does not depend on `st` or `body`); the
exact query proceeds to the upstream response handling. -/
theorem claim8_query_gate (q : List (Bytes × List Bytes)) (st : Nat) (body : Bytes) :
    (q ≠ exactQuery →
      infoRefs q st body = .resp 403 ("invalid query: ".data ++ mapRepr q)) ∧
    (q = exactQuery →
      infoRefs q st body = if st = 200 then infoRefsBody body else .resp st body) := by
  constructor
  · intro hne
    have hcq : checkQuery q = true := by
      cases hcq : checkQuery q
      · exact absurd ((checkQuery_eq_false_iff q).mp hcq) hne
      · rfl
    rw [infoRefs, if_pos hcq]
  · intro he
    subst he
    rw [infoRefs, if_neg (by decide)]

/-- C8 witness: an extra query parameter is rejected with 403, with the body
naming the offending query. -/
theorem claim8_query_gate_witness :
    infoRefs rejQuery 200 [] = .resp 403 ("invalid query: ".data ++ mapRepr rejQuery) :=
  (claim8_query_gate rejQuery 200 []).1 (by decide)

/-- C9: when the upstream advertisement does not contain the configured
target, the handler answers 500 with exactly the diagnostic naming the
target — the body is the diagnostic alone, so no advertisement byte was
written before the error. -/
theorem claim9_missing_target (a : Adv) (wf : advWF a)
    (ht : target ∉ a.others.map Prod.snd) :
    infoRefs exactQuery 200 (encodeAdv a) =
      .resp 500 ("invalid target reference: ".data ++ target) := by
  rw [infoRefs, if_neg (by decide), if_pos rfl]
  exact infoRefsBody_missing_target a wf ht

/-- C9 witness. -/
theorem claim9_missing_target_witness :
    infoRefs exactQuery 200 (encodeAdv advNoGo) =
      .resp 500 ("invalid target reference: ".data ++ target) :=
  claim9_missing_target advNoGo (by decide) (by decide)

/-- C10: `readRef` reports an empty name for a flush record exactly as for a
blank record, so the first-reference loop consumes the flush of an empty
advertisement and the next read fails: a valid header followed immediately
by a flush yields 500 "invalid reference" rather than an empty rewritten
advertisement. -/
theorem claim10_empty_advertisement :
    (∀ r : Bytes, readRef (emitPkt [] ++ r) = .blank r) ∧
    (∀ r : Bytes, readRef ("0004".data ++ r) = .blank r) ∧
    infoRefs exactQuery 200 (emitPkt serviceLine ++ emitPkt []) =
      .resp 500 ("invalid reference: ".data) := by
  refine ⟨readRef_flush, ?_, by decide⟩
  intro r
  have h4 : readPkt ("0004".data ++ r) = .ok [] r := by
    rw [readPkt, if_neg (by simp)]
    rw [take_append_len ("0004".data) r 4 (by decide)]
    simp only [show parseHex4 "0004".data = some 4 from by decide]
    rw [if_neg (by omega), if_neg (by simp [List.length_append]; omega), if_neg (by omega)]
    rw [show ((4 : Int)).toNat = 4 from rfl]
    rw [take_append_len ("0004".data) r 4 (by decide)]
    rw [drop_append_len ("0004".data) r 4 (by decide)]
    rfl
  rw [readRef]
  simp only [h4]
  rfl
